import Mathlib

/-!
# Verification of the SpeechAIfeedback analysis core

Shallow embedding of the speech-analysis pipeline
(`speech_analyzer.py`, `ai_analyzer.py`): framed feature extraction,
text/filler analysis, metric fusion, and the deterministic narrative
fallback.  Machine floats are modelled by exact rationals / reals;
numpy's NaN results (mean of an empty array, 0/0 divisions) are
modelled by `Option.none`.
-/

namespace SpeechAI

/-- `re` word character (`\w` over the ASCII fragment): alphanumeric or
underscore.  Source: the `\b\w+\b` tokenization pattern in
`_analyze_text` (speech_analyzer.py line 120). -/
def isW (c : Char) : Bool := c.isAlphanum || c = '_'

/-- Python `str.strip` whitespace set (ASCII fragment). -/
def isSpacePy (c : Char) : Bool :=
  c = ' ' || c = '\t' || c = '\n' || c = '\x0d' || c = '\x0b' || c = '\x0c'

/-- `transcript.lower()` (ASCII fragment of Python `str.lower`). -/
def lowerStr (s : List Char) : List Char := s.map Char.toLower

/-- Python `str.strip()`: drop leading and trailing whitespace. -/
def stripPy (s : List Char) : List Char :=
  ((s.dropWhile isSpacePy).reverse.dropWhile isSpacePy).reverse

/-- Maximal runs of characters satisfying `p` (accumulator holds the
current run, reversed).  With `p := isW` this is exactly the token list
produced by `re.findall(r'\b\w+\b', text)`. -/
def runsAux (p : Char → Bool) (cur : List Char) : List Char → List (List Char)
  | [] => if cur.isEmpty then [] else [cur.reverse]
  | c :: s =>
    if p c then runsAux p (c :: cur) s
    else if cur.isEmpty then runsAux p [] s else cur.reverse :: runsAux p [] s

/-- All maximal runs of `p`-characters of `s`, in order. -/
def runs (p : Char → Bool) (s : List Char) : List (List Char) := runsAux p [] s

/-- `re.findall(r'\b\w+\b', s)`: the word tokens of `s`. -/
def tokenize (s : List Char) : List (List Char) := runs isW s

/-- Python `str.split()` (split on whitespace, dropping empty parts). -/
def splitWs (s : List Char) : List (List Char) := runs (fun c => !isSpacePy c) s

/-- Does the multi-word filler `f` match the text at the head of `t`?
Models one attempt of the regex `\b<f>\b` (the filler begins and ends
with word characters, so the trailing `\b` demands end-of-string or a
non-word character right after the match; the leading `\b` is the
`prev` flag of the scan `occAux`). -/
def matchB (f t : List Char) : Bool :=
  f.isPrefixOf t &&
    (match t.drop f.length with
     | [] => true
     | d :: _ => !isW d)

/-- Scanner for `len(re.findall(r'\b' + re.escape(f) + r'\b', s))`:
`skip` is the number of characters of an already-counted match still to
be consumed (regex matches are non-overlapping), `prev` records whether
the previous character was a word character (the leading `\b`). -/
def occAux (f : List Char) : ℕ → Bool → List Char → ℕ
  | _, _, [] => 0
  | k + 1, _, c :: s => occAux f k (isW c) s
  | 0, prev, c :: s =>
    if !prev && matchB f (c :: s) then
      1 + occAux f (f.length - 1) (isW c) s
    else
      occAux f 0 (isW c) s

/-- Number of regex word-boundary matches of the filler `f` in `s`:
`len(re.findall(r'\b' + re.escape(f) + r'\b', s))`
(speech_analyzer.py line 137). -/
def occ (f s : List Char) : ℕ := occAux f 0 false s

/-- First word of a filler expression: its maximal leading run of word
characters. -/
def firstW (f : List Char) : List Char := f.takeWhile isW

/-- Second word of a two-word filler expression: what follows the
separating space. -/
def secondW (f : List Char) : List Char := (f.drop (firstW f).length).tail

/-- Shape of every multi-word entry of the filler dictionary: a
non-empty word run, one space, a non-empty word run. -/
def TwoWord (f : List Char) : Prop :=
  f = firstW f ++ ' ' :: secondW f ∧ firstW f ≠ [] ∧ secondW f ≠ []
    ∧ ∀ c ∈ secondW f, isW c = true

/-- A word boundary in the `\b` sense: end of string, or a non-word
character next. -/
def boundaryL (r : List Char) : Prop :=
  r = [] ∨ ∃ d r', r = d :: r' ∧ isW d = false

instance twoWordDecidable (f : List Char) : Decidable (TwoWord f) :=
  decidable_of_iff
    (f = firstW f ++ ' ' :: secondW f ∧ firstW f ≠ [] ∧ secondW f ≠ []
      ∧ ∀ c ∈ secondW f, isW c = true) Iff.rfl

/-- The filler-word dictionary `self.filler_words`
(speech_analyzer.py lines 9-13), in source order. -/
def fillerWords : List (List Char) :=
  ["um".data, "uh".data, "er".data, "ah".data, "like".data,
   "you know".data, "actually".data, "basically".data,
   "literally".data, "so".data, "well".data, "okay".data,
   "right".data, "i mean".data, "sort of".data,
   "kind of".data, "you see".data, "obviously".data,
   "clearly".data, "honestly".data]

/-- The multi-word fillers: those `f` with `len(f.split()) > 1`
(speech_analyzer.py line 136). -/
def multiFillers : List (List Char) :=
  fillerWords.filter (fun f => (splitWs f).length > 1)

/-- `collections.Counter` built by insertion:
first-occurrence order with running counts. -/
def counterOf (l : List (List Char)) : List (List Char × ℕ) :=
  l.foldl
    (fun acc x =>
      if acc.any (fun p => p.1 = x) then
        acc.map (fun p => if p.1 = x then (p.1, p.2 + 1) else p)
      else acc ++ [(x, 1)])
    []

/-- Stable insertion keeping counts in descending order (an element is
placed after all entries with a count `≥` its own, matching the
stability of Python's `sorted(..., reverse=True)`). -/
def insertDesc (x : List Char × ℕ) : List (List Char × ℕ) → List (List Char × ℕ)
  | [] => [x]
  | y :: l => if y.2 < x.2 then x :: y :: l else y :: insertDesc x l

/-- `Counter(l).most_common(n)`: entries sorted by count descending,
ties in first-occurrence order, truncated to `n`. -/
def mostCommon (n : ℕ) (l : List (List Char)) : List (List Char) :=
  (((counterOf l).foldl (fun acc p => insertDesc p acc) []).take n).map Prod.fst

/-- The result record of `_analyze_text` (speech_analyzer.py
lines 151-157). -/
structure LexicalFeatures where
  word_count : ℕ
  filler_count : ℕ
  filler_percentage : ℚ
  common_fillers : List (List Char)
  avg_word_length : ℚ
  deriving DecidableEq, Repr

/-- `SpeechAnalyzer._analyze_text` (speech_analyzer.py lines 108-157):
tokenize the lower-cased transcript, count single-word fillers by
membership of each token in the filler dictionary, count multi-word
fillers by word-boundary regex search over the lower-cased transcript,
and derive the percentage and summary statistics. -/
def analyzeText (transcript : List Char) : LexicalFeatures :=
  if (stripPy transcript).isEmpty then
    { word_count := 0, filler_count := 0, filler_percentage := 0,
      common_fillers := [], avg_word_length := 0 }
  else
    let tl := lowerStr transcript
    let words := tokenize tl
    let word_count := words.length
    let foundSingle := words.filter (· ∈ fillerWords)
    let foundMulti :=
      multiFillers.foldr
        (fun f acc => List.replicate (occ f tl) f ++ acc) []
    let filler_count := foundSingle.length +
      (multiFillers.map (fun f => occ f tl)).sum
    let filler_percentage : ℚ :=
      if word_count > 0 then (filler_count : ℚ) / word_count * 100 else 0
    let avg_word_length : ℚ :=
      if words.isEmpty then 0
      else ((words.map List.length).sum : ℚ) / words.length
    { word_count := word_count,
      filler_count := filler_count,
      filler_percentage := filler_percentage,
      common_fillers := mostCommon 5 (foundSingle ++ foundMulti),
      avg_word_length := avg_word_length }

/-- `SpeechAnalyzer._calculate_confidence_score`
(speech_analyzer.py lines 159-177): 10 minus pace, filler and volume
penalties, clamped to `[1, 10]`.  The pace penalties sit in an
`if`/`elif`, mirrored here by nested `if`s. -/
def calculateConfidenceScore (wpm filler_percentage volume_stability : ℚ) : ℚ :=
  let score : ℚ := 10
  let score := if wpm < 120 then score - (120 - wpm) / 20
    else if wpm > 200 then score - (wpm - 200) / 30
    else score
  let score := score - filler_percentage / 5
  let score := score - (10 - volume_stability) / 2
  max 1 (min 10 score)

/-- `words_per_minute` computation in `analyze_speech`
(speech_analyzer.py line 26):
`(word_count / duration) * 60 if duration > 0 else 0`. -/
def wordsPerMinute (word_count : ℕ) (duration : ℚ) : ℚ :=
  if duration > 0 then ((word_count : ℚ) / duration) * 60 else 0

/-! ## Framed feature extraction (`_extract_audio_features`) -/

/-- Python `range(start, stop, step)` for a positive `step`, in closed
form: `⌈(stop - start) / step⌉` elements `start, start + step, ...`
(empty when `stop ≤ start`). -/
def pyRange (start stop step : ℤ) : List ℤ :=
  (List.range ((stop - start + step - 1) / step).toNat).map
    (fun k : ℕ => start + step * (k : ℤ))

/-- The frame start offsets of `_extract_audio_features`
(speech_analyzer.py line 76):
`range(0, len(audio_data) - frame_length, hop_length)` with
`frame_length = 2048` and `hop_length = 512`. -/
def frameStarts (n : ℕ) : List ℤ := pyRange 0 ((n : ℤ) - 2048) 512

/-- The frames themselves: `audio_data[i:i+frame_length]` for each
start offset (speech_analyzer.py line 77). -/
def extractFrames (audio : List ℝ) : List (List ℝ) :=
  (frameStarts audio.length).map (fun i => (audio.drop i.toNat).take 2048)

/-- `np.mean`, whose value on an empty array is numpy's NaN —
modelled as the sentinel `none` (numpy emits a warning and the NaN
value, it does not raise). -/
noncomputable def npMean (l : List ℝ) : Option ℝ :=
  if l.isEmpty then none else some (l.sum / l.length)

/-- `np.var` (population variance), NaN on an empty array, modelled
as `none`. -/
noncomputable def npVar (l : List ℝ) : Option ℝ :=
  match npMean l with
  | none => none
  | some m => some ((l.map (fun x => (x - m) ^ 2)).sum / l.length)

/-- A frame's RMS: `np.sqrt(np.mean(frame**2))`
(speech_analyzer.py line 78).  On the frames produced by
`extractFrames` the frame is never empty, so the inner mean is given
directly. -/
noncomputable def frameRms (frame : List ℝ) : ℝ :=
  Real.sqrt ((frame.map (fun x => x ^ 2)).sum / frame.length)

/-- Decibel conversion `20 * np.log10(np.maximum(rms, 1e-10))`
(speech_analyzer.py line 85). -/
noncomputable def rmsToDb (rms : ℝ) : ℝ :=
  20 * Real.logb 10 (max rms (1 / 10 ^ 10))

/-- A frame's zero-crossing rate:
`np.sum(np.diff(np.sign(frame)) != 0) / (2 * len(frame))`
(speech_analyzer.py line 98). -/
noncomputable def frameZcr (frame : List ℝ) : ℝ :=
  ((frame.zip frame.tail).countP
      (fun p => decide ¬ (SignType.sign p.1 = SignType.sign p.2)) : ℝ) /
    (2 * frame.length)

/-- The aggregate fields of `_extract_audio_features`
(speech_analyzer.py lines 63-106) that later stages consume.
`Option` fields are `none` exactly where numpy would produce NaN
(aggregates of an empty frame sequence). -/
structure AcousticFeatures where
  rms_values : List ℝ
  avg_volume_db : Option ℝ
  volume_variance : Option ℝ
  zero_crossing_rate : Option ℝ

/-- `SpeechAnalyzer._extract_audio_features`, restricted to the framed
statistics (the Welch spectral centroid is modelled separately by
`spectralCentroid`). -/
noncomputable def extractAudioFeatures (audio : List ℝ) : AcousticFeatures :=
  let frames := extractFrames audio
  let rms := frames.map frameRms
  let rmsDb := rms.map rmsToDb
  { rms_values := rms
    avg_volume_db := npMean rmsDb
    volume_variance := npVar rmsDb
    zero_crossing_rate := npMean (frames.map frameZcr) }

/-- numpy float division, `none` on a zero divisor (numpy yields NaN
or infinity with a warning, never a raised error). -/
noncomputable def npDiv (a b : ℝ) : Option ℝ :=
  if b = 0 then none else some (a / b)

/-- The spectral-centroid division
`np.sum(f * psd) / np.sum(psd)` (speech_analyzer.py line 91),
applied to the frequency grid and power-spectral-density estimate
returned by `scipy.signal.welch`. -/
noncomputable def spectralCentroid (f psd : List ℝ) : Option ℝ :=
  npDiv ((f.zipWith (· * ·) psd).sum) psd.sum

/-- Modelled from the spec: the power-spectral-density estimate
(`scipy.signal.welch`, an external library call) of a silent
(all-zero) waveform — every power estimate of a zero signal is zero. -/
def silentPsd (n : ℕ) : List ℝ := List.replicate n 0

/-! ## Volume stability (`_calculate_volume_stability`) -/

/-- `SpeechAnalyzer._calculate_volume_stability`
(speech_analyzer.py lines 179-210): coefficient of variation of the
finite, strictly positive RMS values, mapped to `clamp(10 - 10·cv, 1,
10)`; neutral default `5.0` when no valid values remain or their mean
is zero.  Over the real-number model every value is finite, so the
`np.isfinite` conjunct of the filter is vacuous. -/
noncomputable def calculateVolumeStability (rms_values : List ℝ) : ℝ :=
  if rms_values.isEmpty then 5
  else
    let valid := rms_values.filter (fun x => 0 < x)
    if valid.isEmpty then 5
    else
      let mean := valid.sum / valid.length
      let std := Real.sqrt ((valid.map (fun x => (x - mean) ^ 2)).sum / valid.length)
      if mean = 0 then 5
      else
        let cv := std / mean
        max 1 (min 10 (10 - cv * 10))

/-! ## Narrative generator (`ai_analyzer.py`) -/

/-- Python `int()` on a float/rational: truncation toward zero. -/
def pyInt (x : ℚ) : ℤ := if x < 0 then ⌈x⌉ else ⌊x⌋

/-- `min(10, max(1, n))` over integers. -/
def clampScore (n : ℤ) : ℤ := min 10 (max 1 n)

/-- The fields of the fused metrics dictionary that
`AIAnalyzer._fallback_analysis` reads (ai_analyzer.py lines 122-124). -/
structure SpeechMetrics where
  words_per_minute : ℚ
  filler_percentage : ℚ
  volume_stability : ℚ

/-- A recommendation: a `{"title": ..., "description": ...}` pair. -/
structure Recommendation where
  title : String
  description : String
  deriving DecidableEq

/-- The language-proficiency sub-record of an `AnalysisReport`. -/
structure Proficiency where
  grammar_score : ℤ
  vocabulary_score : ℤ
  fluency_score : ℤ
  level : String
  explanation : String
  deriving DecidableEq

/-- The structured report produced by the narrative generator.  The
prose `overall_assessment` is carried as an opaque string (its decimal
formatting of the metric values is irrelevant to every verified
property and is abstracted by `assessmentText`). -/
structure AnalysisReport where
  overall_assessment : String
  language_proficiency : Proficiency
  strengths : List String
  areas_for_improvement : List String
  recommendations : List Recommendation
  deriving DecidableEq

/-- The fallback's `overall_assessment` f-string (ai_analyzer.py
line 177), with the `:.1f` float rendering abstracted to exact
rational rendering. -/
def assessmentText (wpm fp vs : ℚ) : String :=
  "Analysis complete. Speaking pace: " ++ toString wpm.num ++ "/" ++
    toString wpm.den ++ " WPM, Filler percentage: " ++ toString fp.num ++
    "/" ++ toString fp.den ++ "%, Volume stability: " ++ toString vs.num ++
    "/" ++ toString vs.den ++ "/10"

/-- `AIAnalyzer._fallback_analysis` (ai_analyzer.py lines 120-193):
threshold-derived strengths / improvements / recommendations, a
composite proficiency score, and generic entries substituted for any
empty list. -/
def fallbackAnalysis (m : SpeechMetrics) : AnalysisReport :=
  let wpm := m.words_per_minute
  let fp := m.filler_percentage
  let vs := m.volume_stability
  let strengths : List String :=
    (if 140 ≤ wpm ∧ wpm ≤ 180 then
      ["Excellent speaking pace - clear and easy to follow"] else []) ++
    (if fp < 2 then ["Excellent control of filler words"] else []) ++
    (if vs ≥ 7 then ["Good volume control and consistency"] else [])
  let improvements : List String :=
    (if 140 ≤ wpm ∧ wpm ≤ 180 then []
     else if wpm < 120 then
      ["Speaking pace is quite slow - consider increasing tempo"]
     else if wpm > 200 then
      ["Speaking pace is very fast - consider slowing down"]
     else []) ++
    (if fp < 2 then []
     else if fp > 5 then ["High usage of filler words detected"] else []) ++
    (if vs ≥ 7 then [] else ["Volume inconsistency detected"])
  let recommendations : List Recommendation :=
    (if 140 ≤ wpm ∧ wpm ≤ 180 then []
     else if wpm < 120 then
      [{ title := "Increase Speaking Pace",
         description := "Practice speaking at 140-160 words per minute for optimal clarity and engagement." }]
     else if wpm > 200 then
      [{ title := "Moderate Speaking Pace",
         description := "Slow down to 140-180 words per minute to ensure your audience can follow along easily." }]
     else []) ++
    (if fp < 2 then []
     else if fp > 5 then
      [{ title := "Reduce Filler Words",
         description := "Practice pausing instead of using filler words. Record yourself and identify patterns." }]
     else []) ++
    (if vs ≥ 7 then []
     else
      [{ title := "Improve Volume Consistency",
         description := "Practice maintaining steady volume levels. Consider using a metronome for rhythm." }])
  let proficiency_score : ℚ := (10 - fp / 2 + vs + min 10 (wpm / 15)) / 3
  let level : String :=
    if proficiency_score ≥ 8 then "Advanced"
    else if proficiency_score ≥ 6 then "Intermediate"
    else "Beginner"
  { overall_assessment := assessmentText wpm fp vs
    language_proficiency :=
      { grammar_score := clampScore (pyInt proficiency_score)
        vocabulary_score := clampScore (pyInt proficiency_score)
        fluency_score := clampScore (pyInt (10 - fp / 2))
        level := level
        explanation := "Assessment based on speaking metrics analysis" }
    strengths := if strengths.isEmpty
      then ["Speech analysis completed successfully"] else strengths
    areas_for_improvement := if improvements.isEmpty
      then ["Continue practicing for improvement"] else improvements
    recommendations := if recommendations.isEmpty
      then [{ title := "General Practice",
              description := "Continue practicing speaking to improve overall fluency and confidence." }]
      else recommendations }

/-- The parsed `language_proficiency` object of an external JSON
response; `none` fields were absent. -/
structure RawProficiency where
  grammar_score : Option ℚ
  vocabulary_score : Option ℚ
  fluency_score : Option ℚ
  level : Option String
  explanation : Option String

/-- A successfully parsed external JSON response; `none` fields were
absent from the object. -/
structure RawResponse where
  overall_assessment : Option String
  language_proficiency : Option RawProficiency
  strengths : Option (List String)
  areas_for_improvement : Option (List String)
  recommendations : Option (List Recommendation)

/-- The empty raw proficiency object (`result.get(..., {})`). -/
def RawProficiency.empty : RawProficiency :=
  { grammar_score := none, vocabulary_score := none, fluency_score := none,
    level := none, explanation := none }

/-- The report variant whose proficiency scores are rationals (the
external service may return non-integral scores; the fallback returns
integers, injected via `Int.cast`). -/
structure QReport where
  overall_assessment : String
  grammar_score : ℚ
  vocabulary_score : ℚ
  fluency_score : ℚ
  level : String
  explanation : String
  strengths : List String
  areas_for_improvement : List String
  recommendations : List Recommendation

/-- View of an `AnalysisReport` (integer scores) as a `QReport`. -/
def AnalysisReport.toQ (r : AnalysisReport) : QReport :=
  { overall_assessment := r.overall_assessment
    grammar_score := r.language_proficiency.grammar_score
    vocabulary_score := r.language_proficiency.vocabulary_score
    fluency_score := r.language_proficiency.fluency_score
    level := r.language_proficiency.level
    explanation := r.language_proficiency.explanation
    strengths := r.strengths
    areas_for_improvement := r.areas_for_improvement
    recommendations := r.recommendations }

/-- `min(10, max(1, x))` over rationals (ai_analyzer.py lines 107-109). -/
def clampQ (x : ℚ) : ℚ := min 10 (max 1 x)

/-- `AIAnalyzer._validate_and_format_response`
(ai_analyzer.py lines 101-118): every score clamped into `[1, 10]`,
every missing field replaced by its documented default. -/
def validateAndFormatResponse (r : RawResponse) : QReport :=
  let lp := r.language_proficiency.getD RawProficiency.empty
  { overall_assessment :=
      r.overall_assessment.getD "Speech analysis completed."
    grammar_score := clampQ (lp.grammar_score.getD 7)
    vocabulary_score := clampQ (lp.vocabulary_score.getD 7)
    fluency_score := clampQ (lp.fluency_score.getD 7)
    level := lp.level.getD "Intermediate"
    explanation := lp.explanation.getD "Assessment based on speech analysis."
    strengths := r.strengths.getD []
    areas_for_improvement := r.areas_for_improvement.getD []
    recommendations := r.recommendations.getD [] }

/-- Outcome of the external narrative call, as observed by
`analyze_speech_performance` (ai_analyzer.py lines 15-48): the client
may be missing (`OPENAI_API_KEY` unset), the request may raise, the
returned content may be `None`, the content may fail to parse as JSON
or violate the schema during validation (all exceptions are caught by
the surrounding `try`), or a parsed response object is available. -/
inductive ExternalOutcome where
  | noClient
  | requestError
  | nullContent
  | parseError
  | schemaError
  | ok (r : RawResponse)

/-- `AIAnalyzer.analyze_speech_performance` (ai_analyzer.py
lines 15-48), as a function of the external call's outcome: every
failure outcome falls back to the deterministic analysis; a parsed
response is validated and formatted. -/
def analyzeSpeechPerformance (outcome : ExternalOutcome)
    (m : SpeechMetrics) : QReport :=
  match outcome with
  | .ok r => validateAndFormatResponse r
  | _ => (fallbackAnalysis m).toQ

/-! ## Specification-side formulas (for refinement claims) -/

/-- The confidence-score formula as the specification words it:
start at 10.0, subtract `(120 - wpm)/20` when `wpm < 120`, subtract
`(wpm - 200)/30` when `wpm > 200`, subtract `fp/5`, subtract
`(10 - vs)/2`, clamp to `[1, 10]`. -/
def specConfidenceScore (wpm fp vs : ℚ) : ℚ :=
  max 1 (min 10
    (10 - (if wpm < 120 then (120 - wpm) / 20 else 0)
        - (if wpm > 200 then (wpm - 200) / 30 else 0)
        - fp / 5 - (10 - vs) / 2))

/-! ## Basic bounds -/

theorem clampScore_one_le (n : ℤ) : 1 ≤ clampScore n := by
  unfold clampScore
  exact le_min (by norm_num) (le_max_left 1 n)

theorem clampScore_le_ten (n : ℤ) : clampScore n ≤ 10 := min_le_left _ _

theorem clampQ_one_le (x : ℚ) : 1 ≤ clampQ x := by
  unfold clampQ
  exact le_min (by norm_num) (le_max_left 1 x)

theorem clampQ_le_ten (x : ℚ) : clampQ x ≤ 10 := min_le_left _ _

/-- The Python idiom `xs if xs else [default]` never yields an empty
list when the default is non-empty. -/
theorem ite_isEmpty_ne_nil {α : Type} (l d : List α) (hd : d ≠ []) :
    (if l.isEmpty = true then d else l) ≠ [] := by
  split
  · exact hd
  · next h => simpa [List.isEmpty_iff] using h

/-! ## Tokenization lemmas

The correspondence between the character-level filler scans and the
token list, used to bound the filler count by the word count (C5). -/

theorem runs_cons_neg (p : Char → Bool) (c : Char) (s : List Char)
    (h : p c = false) : runs p (c :: s) = runs p s := by
  simp [runs, runsAux, h]

theorem runsAux_run (p : Char → Bool) :
    ∀ (a cur r : List Char), (∀ c ∈ a, p c = true) →
      (r = [] ∨ ∃ d r', r = d :: r' ∧ p d = false) →
      (cur = [] → a ≠ []) →
      runsAux p cur (a ++ r) = (cur.reverse ++ a) :: runs p r := by
  intro a
  induction a with
  | nil =>
    intro cur r _ hr hne
    have hcur : cur.isEmpty = false := by
      have : cur ≠ [] := fun h => (hne h) rfl
      simpa [List.isEmpty_iff] using this
    rcases hr with rfl | ⟨d, r', rfl, hd⟩
    · simp [runsAux, runs, hcur]
    · simp [runsAux, runs, hd, hcur]
  | cons x a' ih =>
    intro cur r ha hr _
    have hx : p x = true := ha x (List.mem_cons_self x a')
    have step : runsAux p cur ((x :: a') ++ r) = runsAux p (x :: cur) (a' ++ r) := by
      simp [runsAux, hx]
    rw [step, ih (x :: cur) r (fun c hc => ha c (List.mem_cons_of_mem x hc)) hr
      (by simp)]
    simp

theorem runs_run (p : Char → Bool) (a r : List Char)
    (ha : ∀ c ∈ a, p c = true)
    (hr : r = [] ∨ ∃ d r', r = d :: r' ∧ p d = false)
    (hne : a ≠ []) : runs p (a ++ r) = a :: runs p r := by
  have := runsAux_run p a [] r ha hr (fun _ => hne)
  simpa [runs] using this

theorem takeWhile_run (p : Char → Bool) :
    ∀ (a r : List Char), (∀ c ∈ a, p c = true) →
      (r = [] ∨ ∃ d r', r = d :: r' ∧ p d = false) →
      (a ++ r).takeWhile p = a := by
  intro a
  induction a with
  | nil =>
    intro r _ hr
    rcases hr with rfl | ⟨d, r', rfl, hd⟩
    · rfl
    · simp [List.takeWhile_cons, hd]
  | cons x a' ih =>
    intro r ha hr
    have hx : p x = true := ha x (List.mem_cons_self x a')
    simp [List.takeWhile_cons, hx,
      ih r (fun c hc => ha c (List.mem_cons_of_mem x hc)) hr]

theorem dropWhile_head_false (p : Char → Bool) :
    ∀ (l : List Char) (d : Char) (r' : List Char),
      l.dropWhile p = d :: r' → p d = false := by
  intro l
  induction l with
  | nil => intro d r' h; exact absurd h (by simp)
  | cons c l' ih =>
    intro d r' h
    rw [List.dropWhile_cons] at h
    by_cases hc : p c = true
    · rw [if_pos hc] at h
      exact ih d r' h
    · have hc' : p c = false := by simpa using hc
      rw [hc'] at h
      simp at h
      rw [← h.1]
      exact hc'

theorem boundaryL_dropWhile (l : List Char) : boundaryL (l.dropWhile isW) := by
  cases h : l.dropWhile isW with
  | nil => exact Or.inl rfl
  | cons d r' => exact Or.inr ⟨d, r', rfl, dropWhile_head_false isW l d r' h⟩

theorem takeWhile_mem_isW (f : List Char) :
    ∀ c ∈ f.takeWhile isW, isW c = true :=
  fun _ hc => List.mem_takeWhile_imp hc

/-- A filler expression starting with a word character. -/
def headW (f : List Char) : Prop :=
  ∃ x t, f = x :: t ∧ isW x = true

theorem twoWord_headW {f : List Char} (hf : TwoWord f) : headW f := by
  obtain ⟨hgeq, hgne, _, _⟩ := hf
  cases hfw : firstW f with
  | nil => exact absurd hfw hgne
  | cons x fw' =>
    refine ⟨x, fw' ++ ' ' :: secondW f, ?_, ?_⟩
    · conv_lhs => rw [hgeq, hfw]
      exact List.cons_append x fw' (' ' :: secondW f)
    · have hmem : x ∈ f.takeWhile isW := by
        show x ∈ firstW f
        rw [hfw]
        exact List.mem_cons_self x fw'
      exact takeWhile_mem_isW f x hmem

theorem occAux_skip (f : List Char) :
    ∀ (u : List Char) (pr : Bool) (r : List Char),
      occAux f u.length pr (u ++ r)
        = occAux f 0 (u.foldl (fun _ c => isW c) pr) r := by
  intro u
  induction u with
  | nil => intro pr r; rfl
  | cons c u' ih =>
    intro pr r
    have step : occAux f (c :: u').length pr ((c :: u') ++ r)
        = occAux f u'.length (isW c) (u' ++ r) := rfl
    rw [step, ih (isW c) r]
    rfl

theorem occAux_head_neg (f : List Char) (hf : headW f) (c : Char)
    (s : List Char) (hc : isW c = false) (pr : Bool) :
    occAux f 0 pr (c :: s) = occAux f 0 false s := by
  obtain ⟨x, t, rfl, hx⟩ := hf
  cases pr
  · have hne : (x == c) = false := by
      refine beq_eq_false_iff_ne.mpr (fun h => ?_)
      rw [h, hc] at hx
      exact Bool.false_ne_true hx
    have hm : matchB (x :: t) (c :: s) = false := by
      simp [matchB, List.isPrefixOf, hne]
    simp [occAux, hm, hc]
  · simp [occAux, hc]

theorem occAux_runTrue (f : List Char) :
    ∀ (u v : List Char), (∀ c ∈ u, isW c = true) →
      occAux f 0 true (u ++ v) = occAux f 0 true v := by
  intro u
  induction u with
  | nil => intro v _; rfl
  | cons c u' ih =>
    intro v hu
    have hc : isW c = true := hu c (List.mem_cons_self c u')
    have step : occAux f 0 true ((c :: u') ++ v)
        = occAux f 0 (isW c) (u' ++ v) := by
      simp [occAux]
    rw [step, hc, ih v (fun d hd => hu d (List.mem_cons_of_mem c hd))]

theorem occAux_runFalse (f u v : List Char)
    (hu : ∀ c ∈ u, isW c = true) (hne : u ≠ [])
    (hnm : matchB f (u ++ v) = false) :
    occAux f 0 false (u ++ v) = occAux f 0 true v := by
  cases u with
  | nil => exact absurd rfl hne
  | cons x u' =>
    have hx : isW x = true := hu x (List.mem_cons_self x u')
    have hnm' : matchB f (x :: (u' ++ v)) = false := hnm
    have step : occAux f 0 false ((x :: u') ++ v)
        = occAux f 0 (isW x) (u' ++ v) := by
      simp [occAux, hnm']
    rw [step, hx,
      occAux_runTrue f u' v (fun d hd => hu d (List.mem_cons_of_mem x hd))]

theorem occAux_prev_boundary (f : List Char) (hf : headW f)
    (r : List Char) (hr : boundaryL r) (pr : Bool) :
    occAux f 0 pr r = occAux f 0 false r := by
  rcases hr with rfl | ⟨d, r', rfl, hd⟩
  · cases pr <;> rfl
  · rw [occAux_head_neg f hf d r' hd pr, occAux_head_neg f hf d r' hd false]

theorem isPrefixOf_decomp :
    ∀ (f t : List Char), f.isPrefixOf t = true → ∃ rest, t = f ++ rest := by
  intro f
  induction f with
  | nil => intro t _; exact ⟨t, rfl⟩
  | cons a f' ih =>
    intro t h
    cases t with
    | nil => exact absurd h (by simp [List.isPrefixOf])
    | cons b t' =>
      have h' : (a == b) = true ∧ f'.isPrefixOf t' = true := by
        simpa [List.isPrefixOf, Bool.and_eq_true] using h
      obtain ⟨rest, hr⟩ := ih t' h'.2
      exact ⟨rest, by rw [hr, beq_iff_eq.mp h'.1]; rfl⟩

theorem matchB_decomp (f t : List Char) (h : matchB f t = true) :
    ∃ rest, t = f ++ rest ∧ boundaryL rest := by
  have h1 : f.isPrefixOf t = true ∧
      (match t.drop f.length with
       | [] => true
       | d :: _ => !isW d) = true := by
    simpa [matchB, Bool.and_eq_true] using h
  obtain ⟨rest, hrest⟩ := isPrefixOf_decomp f t h1.1
  refine ⟨rest, hrest, ?_⟩
  have hdrop : t.drop f.length = rest := by
    rw [hrest]
    exact List.drop_left f rest
  have h2 := h1.2
  rw [hdrop] at h2
  cases rest with
  | nil => exact Or.inl rfl
  | cons d r' =>
    refine Or.inr ⟨d, r', rfl, ?_⟩
    simpa using h2

theorem run_forced :
    ∀ (ag b t rest u : List Char), (∀ c ∈ ag, isW c = true) →
      (∀ c ∈ b, isW c = true) → boundaryL rest →
      (ag ++ ' ' :: t) ++ u = b ++ rest → ag = b := by
  intro ag
  induction ag with
  | nil =>
    intro b t rest u _ hb _ heq
    cases b with
    | nil => rfl
    | cons e b' =>
      simp only [List.nil_append, List.cons_append] at heq
      have h1 : ' ' = e := (List.cons.injEq _ _ _ _).mp heq |>.1
      have he : isW e = true := hb e (List.mem_cons_self e b')
      rw [← h1] at he
      exact absurd he (by decide)
  | cons x ag' ih =>
    intro b t rest u hag hb hrest heq
    cases b with
    | nil =>
      simp only [List.nil_append, List.cons_append] at heq
      rcases hrest with rfl | ⟨d, r', rfl, hd⟩
      · exact absurd heq (by simp)
      · have h1 : x = d := (List.cons.injEq _ _ _ _).mp heq |>.1
        have hx : isW x = true := hag x (List.mem_cons_self x ag')
        rw [h1, hd] at hx
        exact absurd hx (by simp)
    | cons e b' =>
      simp only [List.cons_append] at heq
      have h1 := (List.cons.injEq _ _ _ _).mp heq
      have h2 : ag' = b' := ih b' t rest u
        (fun c hc => hag c (List.mem_cons_of_mem x hc))
        (fun c hc => hb c (List.mem_cons_of_mem e hc)) hrest h1.2
      rw [h1.1, h2]

theorem matchB_unique (f g s : List Char) (hf : TwoWord f) (hg : TwoWord g)
    (hfm : matchB f s = true) (hgm : matchB g s = true) : f = g := by
  obtain ⟨restf, hsf, hbf⟩ := matchB_decomp f s hfm
  obtain ⟨restg, hsg, hbg⟩ := matchB_decomp g s hgm
  obtain ⟨hfeq, hfne, hfsne, hfsw⟩ := hf
  obtain ⟨hgeq, hgne, hgsne, hgsw⟩ := hg
  have hs1 : s = firstW f ++ ' ' :: (secondW f ++ restf) := by
    rw [hsf]
    conv_lhs => rw [hfeq]
    simp
  have hs2 : s = firstW g ++ ' ' :: (secondW g ++ restg) := by
    rw [hsg]
    conv_lhs => rw [hgeq]
    simp
  have hfw : firstW g = firstW f := by
    refine run_forced (firstW g) (firstW f) (secondW g ++ restg)
      (' ' :: (secondW f ++ restf)) []
      (takeWhile_mem_isW g) (takeWhile_mem_isW f)
      (Or.inr ⟨' ', secondW f ++ restf, rfl, by decide⟩) ?_
    rw [List.append_nil]
    exact hs2.symm.trans hs1
  have hcore : secondW f ++ restf = secondW g ++ restg := by
    have h := hs1.symm.trans hs2
    rw [hfw] at h
    have h2 := List.append_cancel_left h
    exact (List.cons.injEq _ _ _ _).mp h2 |>.2
  have hsw : secondW f = secondW g := by
    have h1 : (secondW f ++ restf).takeWhile isW = secondW f :=
      takeWhile_run isW _ _ hfsw hbf
    have h2 : (secondW g ++ restg).takeWhile isW = secondW g :=
      takeWhile_run isW _ _ hgsw hbg
    rw [← h1, hcore, h2]
  rw [hfeq, hgeq, hfw, hsw]

theorem occ_region (g a b rest : List Char) (hg : TwoWord g)
    (ha : ∀ c ∈ a, isW c = true) (hane : a ≠ [])
    (hb : ∀ c ∈ b, isW c = true) (hbne : b ≠ [])
    (hrest : boundaryL rest)
    (h0 : matchB g (a ++ ' ' :: (b ++ rest)) = false)
    (hfw : firstW g ≠ b) :
    occAux g 0 false (a ++ ' ' :: (b ++ rest)) = occAux g 0 false rest := by
  have hhead := twoWord_headW hg
  have step1 : occAux g 0 false (a ++ ' ' :: (b ++ rest))
      = occAux g 0 true (' ' :: (b ++ rest)) :=
    occAux_runFalse g a (' ' :: (b ++ rest)) ha hane h0
  have step2 : occAux g 0 true (' ' :: (b ++ rest))
      = occAux g 0 (isW ' ') (b ++ rest) := by
    simp [occAux]
  have hsp : isW ' ' = false := by decide
  have hnm2 : matchB g (b ++ rest) = false := by
    by_contra hcon
    have h' : matchB g (b ++ rest) = true := by simpa using hcon
    obtain ⟨rest2, heq, _⟩ := matchB_decomp g _ h'
    obtain ⟨hgeq, _, _, _⟩ := hg
    have heq2 : (firstW g ++ ' ' :: secondW g) ++ rest2 = b ++ rest := by
      rw [← hgeq]
      exact heq.symm
    have : firstW g = b :=
      run_forced (firstW g) b (secondW g) rest rest2
        (takeWhile_mem_isW g) hb hrest heq2
    exact hfw this
  have step3 : occAux g 0 false (b ++ rest) = occAux g 0 true rest :=
    occAux_runFalse g b rest hb hbne hnm2
  have step4 : occAux g 0 true rest = occAux g 0 false rest :=
    occAux_prev_boundary g hhead rest hrest true
  rw [step1, step2, hsp, step3, step4]

theorem length_dropWhile_le (p : Char → Bool) :
    ∀ l : List Char, (l.dropWhile p).length ≤ l.length := by
  intro l
  induction l with
  | nil => simp
  | cons c l' ih =>
    rw [List.dropWhile_cons]
    split
    · exact le_trans ih (by simp)
    · exact le_refl _

theorem occ_self (f rest : List Char) (hf : TwoWord f) (hrest : boundaryL rest)
    (hm : matchB f (f ++ rest) = true) :
    occAux f 0 false (f ++ rest) = 1 + occAux f 0 false rest := by
  obtain ⟨x, ft, hfx, hxw⟩ := twoWord_headW hf
  subst hfx
  have hm' : matchB (x :: ft) (x :: (ft ++ rest)) = true := hm
  have step : occAux (x :: ft) 0 false ((x :: ft) ++ rest)
      = 1 + occAux (x :: ft) ft.length (isW x) (ft ++ rest) := by
    simp [occAux, hm']
  rw [step, occAux_skip (x :: ft) ft (isW x) rest]
  congr 1
  exact occAux_prev_boundary (x :: ft) ⟨x, ft, rfl, hxw⟩ rest hrest _

theorem sum_map_bump {α : Type} [DecidableEq α] :
    ∀ (P : List α) (F G : α → ℕ) (f : α), f ∈ P → P.Nodup →
      (∀ g ∈ P, g ≠ f → F g = G g) → F f = 1 + G f →
      (P.map F).sum = 1 + (P.map G).sum := by
  intro P
  induction P with
  | nil => intro F G f hf _ _ _; exact absurd hf (List.not_mem_nil f)
  | cons x P' ih =>
    intro F G f hf hnd hother hbump
    by_cases hxf : x = f
    · subst hxf
      have hnotin : x ∉ P' := (List.nodup_cons.mp hnd).1
      have hmap : P'.map F = P'.map G :=
        List.map_congr_left (fun g hg =>
          hother g (List.mem_cons_of_mem x hg) (fun h => hnotin (h ▸ hg)))
      rw [List.map_cons, List.map_cons, List.sum_cons, List.sum_cons,
        hmap, hbump]
      omega
    · have hf' : f ∈ P' := by
        rcases List.mem_cons.mp hf with h | h
        · exact absurd h.symm hxf
        · exact h
      have hFx : F x = G x :=
        hother x (List.mem_cons_self x P') hxf
      rw [List.map_cons, List.map_cons, List.sum_cons, List.sum_cons, hFx,
        ih F G f hf' (List.nodup_cons.mp hnd).2
          (fun g hg hgf => hother g (List.mem_cons_of_mem x hg) hgf) hbump]
      omega

/-- Master inequality: over any text, the number of single-word filler
tokens plus the number of word-boundary matches of the two-word filler
expressions never exceeds the number of word tokens, because every
match starts at a token start, consumes two whole tokens whose words
are not in the single-word set, and no two distinct fillers can match
at the same position. -/
theorem filler_le_tokens (W P : List (List Char))
    (hP : ∀ f ∈ P, TwoWord f)
    (hW : ∀ f ∈ P, firstW f ∉ W ∧ secondW f ∉ W)
    (hcross : ∀ f ∈ P, ∀ g ∈ P, firstW g ≠ secondW f)
    (hnd : P.Nodup) :
    ∀ s : List Char,
      ((tokenize s).filter (· ∈ W)).length + (P.map (fun f => occ f s)).sum
        ≤ (tokenize s).length := by
  have main : ∀ N : ℕ, ∀ s : List Char, s.length ≤ N →
      ((tokenize s).filter (· ∈ W)).length + (P.map (fun f => occ f s)).sum
        ≤ (tokenize s).length := by
    intro N
    induction N with
    | zero =>
      intro s hs
      have hnil : s = [] := List.length_eq_zero.mp (Nat.le_zero.mp hs)
      subst hnil
      have hocc : ∀ f ∈ P, occ f ([] : List Char) = 0 := fun f _ => rfl
      have : (P.map (fun f => occ f ([] : List Char))).sum = 0 := by
        rw [List.map_congr_left hocc]
        simp
      rw [this]
      simp [tokenize, runs, runsAux]
    | succ N ih =>
      intro s hs
      cases s with
      | nil =>
        have hocc : ∀ f ∈ P, occ f ([] : List Char) = 0 := fun f _ => rfl
        have : (P.map (fun f => occ f ([] : List Char))).sum = 0 := by
          rw [List.map_congr_left hocc]
          simp
        rw [this]
        simp [tokenize, runs, runsAux]
      | cons c s' =>
        by_cases hc : isW c = true
        · by_cases hex : ∃ f, f ∈ P ∧ matchB f (c :: s') = true
          · -- a filler matches at this position: consume two tokens
            obtain ⟨f, hfP, hfm⟩ := hex
            have hTW := hP f hfP
            obtain ⟨rest, hsplit, hbrest⟩ := matchB_decomp f (c :: s') hfm
            obtain ⟨hfeq, hfne, hfsne, hfsw⟩ := hTW
            have hfw_all : ∀ d ∈ firstW f, isW d = true := takeWhile_mem_isW f
            -- the text as first word, space, second word, rest
            have hshape : c :: s'
                = firstW f ++ ' ' :: (secondW f ++ rest) := by
              rw [hsplit]
              conv_lhs => rw [hfeq]
              simp
            -- token list = firstW f :: secondW f :: tokens of rest
            have htok : tokenize (c :: s')
                = firstW f :: secondW f :: tokenize rest := by
              rw [hshape]
              show runs isW _ = _
              rw [runs_run isW (firstW f) (' ' :: (secondW f ++ rest)) hfw_all
                (Or.inr ⟨' ', secondW f ++ rest, rfl, by decide⟩) hfne,
                runs_cons_neg isW ' ' (secondW f ++ rest) (by decide),
                runs_run isW (secondW f) rest hfsw hbrest hfsne]
              rfl
            -- occurrence counts: the matching filler bumps by one,
            -- every other filler is unchanged
            have hoccf : occ f (c :: s') = 1 + occ f rest := by
              show occAux f 0 false (c :: s') = 1 + occAux f 0 false rest
              rw [hsplit]
              exact occ_self f rest ⟨hfeq, hfne, hfsne, hfsw⟩ hbrest
                (by rw [← hsplit]; exact hfm)
            have hoccg : ∀ g ∈ P, g ≠ f → occ g (c :: s') = occ g rest := by
              intro g hgP hgf
              have hgm : matchB g (c :: s') = false := by
                by_contra hcon
                have h' : matchB g (c :: s') = true := by simpa using hcon
                exact hgf (matchB_unique g f (c :: s') (hP g hgP)
                  ⟨hfeq, hfne, hfsne, hfsw⟩ h' hfm)
              show occAux g 0 false (c :: s') = occAux g 0 false rest
              rw [hshape]
              refine occ_region g (firstW f) (secondW f) rest (hP g hgP)
                hfw_all hfne hfsw hfsne hbrest ?_ (hcross f hfP g hgP)
              rw [← hshape]
              exact hgm
            have hsum : (P.map (fun g => occ g (c :: s'))).sum
                = 1 + (P.map (fun g => occ g rest)).sum :=
              sum_map_bump P _ _ f hfP hnd hoccg hoccf
            -- window length: the filler is at least one character long,
            -- so `rest` is short enough for the induction hypothesis
            have hrestlen : rest.length ≤ N := by
              have hlen : (c :: s').length = f.length + rest.length := by
                rw [hsplit, List.length_append]
              have hfpos : 0 < f.length := by
                rw [hfeq]
                simp
              have := hs
              simp only [List.length_cons] at hlen this
              omega
            have hIH := ih rest hrestlen
            have hfilW := hW f hfP
            rw [htok, hsum]
            simp only [List.filter_cons, List.length_cons]
            rw [if_neg (by simpa using hfilW.1), if_neg (by simpa using hfilW.2)]
            omega
          · -- no filler matches here: consume one token
            push_neg at hex
            have ha_all : ∀ d ∈ (c :: s').takeWhile isW, isW d = true :=
              takeWhile_mem_isW (c :: s')
            have hane : (c :: s').takeWhile isW ≠ [] := by
              rw [List.takeWhile_cons, if_pos hc]
              simp
            have hbr : boundaryL ((c :: s').dropWhile isW) :=
              boundaryL_dropWhile (c :: s')
            have hsplit : c :: s'
                = (c :: s').takeWhile isW ++ (c :: s').dropWhile isW :=
              (List.takeWhile_append_dropWhile isW (c :: s')).symm
            have htok : tokenize (c :: s')
                = (c :: s').takeWhile isW :: tokenize ((c :: s').dropWhile isW) := by
              show runs isW _ = _
              conv_lhs => rw [hsplit]
              exact runs_run isW _ _ ha_all hbr hane
            have hoccg : ∀ g ∈ P, occ g (c :: s')
                = occ g ((c :: s').dropWhile isW) := by
              intro g hgP
              have hgm : matchB g (c :: s') = false := by
                by_contra hcon
                exact hex g hgP (by simpa using hcon)
              show occAux g 0 false (c :: s')
                  = occAux g 0 false ((c :: s').dropWhile isW)
              conv_lhs => rw [hsplit]
              rw [occAux_runFalse g _ _ ha_all hane (by rw [← hsplit]; exact hgm)]
              exact occAux_prev_boundary g (twoWord_headW (hP g hgP)) _ hbr true
            have hsum : (P.map (fun g => occ g (c :: s'))).sum
                = (P.map (fun g => occ g ((c :: s').dropWhile isW))).sum := by
              rw [List.map_congr_left hoccg]
            have hdroplen : ((c :: s').dropWhile isW).length ≤ N := by
              have h1 : ((c :: s').dropWhile isW).length ≤ s'.length := by
                rw [List.dropWhile_cons, if_pos hc]
                exact length_dropWhile_le isW s'
              have h2 : s'.length + 1 ≤ N + 1 := by simpa using hs
              omega
            have hIH := ih ((c :: s').dropWhile isW) hdroplen
            rw [htok, hsum]
            simp only [List.filter_cons, List.length_cons]
            by_cases hmem : (c :: s').takeWhile isW ∈ W
            · rw [if_pos (by simpa using hmem)]
              simp only [List.length_cons]
              omega
            · rw [if_neg (by simpa using hmem)]
              omega
        · -- non-word character: everything passes through
          have hc' : isW c = false := by simpa using hc
          have htok : tokenize (c :: s') = tokenize s' :=
            runs_cons_neg isW c s' hc'
          have hoccg : ∀ g ∈ P, occ g (c :: s') = occ g s' := by
            intro g hgP
            show occAux g 0 false (c :: s') = occAux g 0 false s'
            exact occAux_head_neg g (twoWord_headW (hP g hgP)) c s' hc' false
          have hsum : (P.map (fun g => occ g (c :: s'))).sum
              = (P.map (fun g => occ g s')).sum := by
            rw [List.map_congr_left hoccg]
          have hIH := ih s' (by
            have h2 : s'.length + 1 ≤ N + 1 := by simpa using hs
            omega)
          rw [htok, hsum]
          exact hIH
  intro s
  exact main s.length s (le_refl _)

/-! ## Claim theorems -/

/-- C1: for every words-per-minute value, filler percentage and
volume-stability score, the confidence score of
`_calculate_confidence_score` equals the spec's formula (base 10,
conditional pace penalties, filler and volume penalties, clamped to
`[1, 10]`); at `wpm = 160`, `fp = 1`, `vs = 9` it is `9.3`. -/
theorem C1_confidence_score :
    (∀ wpm fp vs : ℚ,
      calculateConfidenceScore wpm fp vs = specConfidenceScore wpm fp vs)
    ∧ calculateConfidenceScore 160 1 9 = 93 / 10 := by
  constructor
  · intro wpm fp vs
    unfold calculateConfidenceScore specConfidenceScore
    by_cases h1 : wpm < 120
    · have h2 : ¬ wpm > 200 := by linarith
      simp only [if_pos h1, if_neg h2]
      ring_nf
    · by_cases h2 : wpm > 200
      · simp only [if_neg h1, if_pos h2]
        ring_nf
      · simp only [if_neg h1, if_neg h2]
        ring_nf
  · unfold calculateConfidenceScore
    norm_num [min_def, max_def]

/-- C9: words-per-minute is `(word_count / duration) * 60` for a
positive duration and `0` for a zero duration; the computation is a
total function (no division-by-zero error). -/
theorem C9_words_per_minute (wc : ℕ) (d : ℚ) :
    (0 < d → wordsPerMinute wc d = ((wc : ℚ) / d) * 60)
    ∧ (d = 0 → wordsPerMinute wc d = 0) := by
  constructor
  · intro h
    simp [wordsPerMinute, h]
  · intro h
    simp [wordsPerMinute, h]

/-- Witness for C9 at concrete inputs: 10 words over 2 seconds give
300 wpm, and a zero duration gives 0. -/
theorem C9_words_per_minute_witness :
    wordsPerMinute 10 2 = 300 ∧ wordsPerMinute 7 0 = 0 := by
  constructor
  · have h := (C9_words_per_minute 10 2).1 (by norm_num)
    rw [h]; norm_num
  · exact (C9_words_per_minute 7 0).2 rfl

/-- C10: the spectral-centroid computation divides the power-weighted
frequency sum by the total spectral power with no zero-divisor guard;
on the all-zero power spectrum of a silent waveform the divisor is 0
and the result is numpy's NaN (`none`): the `spectral_centroid` field
is not a well-defined number, while no error is raised (the model is
total). -/
theorem C10_spectral_centroid_silent (f : List ℝ) (n : ℕ) :
    spectralCentroid f (silentPsd n) = none := by
  simp [spectralCentroid, silentPsd, npDiv]

/-- The `filler_percentage` field is always derived from the record's
own counts by the source's formula
`(filler_count / word_count * 100) if word_count > 0 else 0`. -/
theorem analyzeText_percentage (t : List Char) :
    (analyzeText t).filler_percentage =
      if 0 < (analyzeText t).word_count then
        ((analyzeText t).filler_count : ℚ) / (analyzeText t).word_count * 100
      else 0 := by
  unfold analyzeText
  split
  · simp
  · rfl

/-- The two count fields of `_analyze_text` on a non-blank transcript,
in terms of the token list and the filler scans. -/
theorem analyzeText_counts (t : List Char)
    (h : (stripPy t).isEmpty = false) :
    (analyzeText t).word_count = (tokenize (lowerStr t)).length
    ∧ (analyzeText t).filler_count
      = ((tokenize (lowerStr t)).filter (· ∈ fillerWords)).length
        + (multiFillers.map (fun f => occ f (lowerStr t))).sum := by
  unfold analyzeText
  rw [if_neg (by simp [h])]
  exact ⟨rfl, rfl⟩

/-- The filler count never exceeds the word count: instantiation of
the master inequality at the concrete filler dictionary (the two-word
fillers are you know / i mean / sort of / kind of / you see; none of
their constituent words is itself a dictionary entry, and no second
word is a first word). -/
theorem analyzeText_count_le (t : List Char) :
    (analyzeText t).filler_count ≤ (analyzeText t).word_count := by
  by_cases h : (stripPy t).isEmpty = true
  · unfold analyzeText
    rw [if_pos h]
  · have h' : (stripPy t).isEmpty = false := by simpa using h
    obtain ⟨hw, hf⟩ := analyzeText_counts t h'
    rw [hw, hf]
    exact filler_le_tokens fillerWords multiFillers
      (by decide) (by decide) (by decide) (by decide) (lowerStr t)

/-- C5: for every transcript the filler percentage lies in `[0, 100]`,
equals `100 · filler_count / word_count` when the word count is
positive, and equals 0 when the word count is 0; a whitespace-only (or
empty) transcript yields the all-zero `LexicalFeatures` record with no
error. -/
theorem C5_filler_percentage (t : List Char) :
    0 ≤ (analyzeText t).filler_percentage
    ∧ (analyzeText t).filler_percentage ≤ 100
    ∧ (0 < (analyzeText t).word_count →
        (analyzeText t).filler_percentage
          = 100 * (analyzeText t).filler_count / (analyzeText t).word_count)
    ∧ ((analyzeText t).word_count = 0 →
        (analyzeText t).filler_percentage = 0)
    ∧ ((stripPy t).isEmpty = true →
        analyzeText t = ⟨0, 0, 0, [], 0⟩) := by
  have hfp := analyzeText_percentage t
  have hle := analyzeText_count_le t
  refine ⟨?_, ?_, ?_, ?_, ?_⟩
  · rw [hfp]
    split
    · positivity
    · exact le_refl 0
  · rw [hfp]
    split
    · next hwc =>
      have hwc' : (0 : ℚ) < (analyzeText t).word_count := by exact_mod_cast hwc
      have hfcle : ((analyzeText t).filler_count : ℚ)
          ≤ (analyzeText t).word_count := by exact_mod_cast hle
      rw [div_mul_eq_mul_div, div_le_iff₀ hwc']
      nlinarith
    · norm_num
  · intro hwc
    rw [hfp, if_pos hwc]
    ring
  · intro hwc
    rw [hfp, if_neg (by omega)]
  · intro h
    unfold analyzeText
    rw [if_pos h]

/-- Witness for C5: `"um hi"` has 2 words and 1 filler, so percentage
`100·1/2 = 50`; blank input yields the all-zero record. -/
theorem C5_filler_percentage_witness :
    (0 < (analyzeText "um hi".data).word_count
      ∧ (analyzeText "um hi".data).filler_percentage
          = 100 * (analyzeText "um hi".data).filler_count
            / (analyzeText "um hi".data).word_count)
    ∧ ((stripPy "   ".data).isEmpty = true
      ∧ analyzeText "   ".data = ⟨0, 0, 0, [], 0⟩) := by
  constructor
  · exact ⟨by decide, (C5_filler_percentage "um hi".data).2.2.1 (by decide)⟩
  · exact ⟨by decide, (C5_filler_percentage "   ".data).2.2.2.2 (by decide)⟩

/-- C6: the deterministic fallback computes the composite score
`(10 - fp/2 + vs + min(10, wpm/15)) / 3`, maps it to "Advanced"
(`≥ 8`) / "Intermediate" (`≥ 6`) / "Beginner", sets grammar and
vocabulary to `clamp(int(composite), 1, 10)` and fluency to
`clamp(int(10 - fp/2), 1, 10)`, and the strengths, improvements and
recommendation lists of the report are never empty while every
numeric sub-score lies in `[1, 10]`. -/
theorem C6_fallback_analysis (m : SpeechMetrics) :
    let composite : ℚ :=
      (10 - m.filler_percentage / 2 + m.volume_stability
        + min 10 (m.words_per_minute / 15)) / 3
    let r := fallbackAnalysis m
    r.language_proficiency.grammar_score = clampScore (pyInt composite)
    ∧ r.language_proficiency.vocabulary_score = clampScore (pyInt composite)
    ∧ r.language_proficiency.fluency_score
        = clampScore (pyInt (10 - m.filler_percentage / 2))
    ∧ r.language_proficiency.level
        = (if composite ≥ 8 then "Advanced"
           else if composite ≥ 6 then "Intermediate" else "Beginner")
    ∧ r.strengths ≠ [] ∧ r.areas_for_improvement ≠ []
    ∧ r.recommendations ≠ []
    ∧ 1 ≤ r.language_proficiency.grammar_score
    ∧ r.language_proficiency.grammar_score ≤ 10
    ∧ 1 ≤ r.language_proficiency.vocabulary_score
    ∧ r.language_proficiency.vocabulary_score ≤ 10
    ∧ 1 ≤ r.language_proficiency.fluency_score
    ∧ r.language_proficiency.fluency_score ≤ 10 := by
  exact ⟨rfl, rfl, rfl, rfl,
    ite_isEmpty_ne_nil _ _ (by simp),
    ite_isEmpty_ne_nil _ _ (by simp),
    ite_isEmpty_ne_nil _ _ (by simp),
    clampScore_one_le _, clampScore_le_ten _,
    clampScore_one_le _, clampScore_le_ten _,
    clampScore_one_le _, clampScore_le_ten _⟩

/-- C7: the narrative generator returns the deterministic fallback's
report on every failure outcome of the external call (missing client,
request error, null content, parse failure, schema violation) and
never propagates the failure (the embedding is a total function); on
a successfully parsed response, every proficiency sub-score is clamped
into `[1, 10]` and every missing field is replaced by its documented
default. -/
theorem C7_narrative_error_absorption (m : SpeechMetrics)
    (outcome : ExternalOutcome) :
    ((∀ r, outcome ≠ .ok r) →
      analyzeSpeechPerformance outcome m = (fallbackAnalysis m).toQ)
    ∧ (∀ r, analyzeSpeechPerformance (.ok r) m = validateAndFormatResponse r)
    ∧ (∀ r, let q := validateAndFormatResponse r
        let lp := r.language_proficiency.getD RawProficiency.empty
        (1 ≤ q.grammar_score ∧ q.grammar_score ≤ 10)
        ∧ (1 ≤ q.vocabulary_score ∧ q.vocabulary_score ≤ 10)
        ∧ (1 ≤ q.fluency_score ∧ q.fluency_score ≤ 10)
        ∧ (r.overall_assessment = none →
            q.overall_assessment = "Speech analysis completed.")
        ∧ (lp.grammar_score = none → q.grammar_score = 7)
        ∧ (lp.vocabulary_score = none → q.vocabulary_score = 7)
        ∧ (lp.fluency_score = none → q.fluency_score = 7)
        ∧ (lp.level = none → q.level = "Intermediate")
        ∧ (lp.explanation = none →
            q.explanation = "Assessment based on speech analysis.")
        ∧ (r.strengths = none → q.strengths = [])
        ∧ (r.areas_for_improvement = none → q.areas_for_improvement = [])
        ∧ (r.recommendations = none → q.recommendations = [])) := by
  refine ⟨?_, fun r => rfl, ?_⟩
  · intro h
    cases outcome with
    | ok r => exact absurd rfl (h r)
    | noClient => rfl
    | requestError => rfl
    | nullContent => rfl
    | parseError => rfl
    | schemaError => rfl
  · intro r
    refine ⟨⟨clampQ_one_le _, clampQ_le_ten _⟩,
      ⟨clampQ_one_le _, clampQ_le_ten _⟩,
      ⟨clampQ_one_le _, clampQ_le_ten _⟩, ?_, ?_, ?_, ?_, ?_, ?_, ?_, ?_, ?_⟩
    all_goals
      intro h
      simp [validateAndFormatResponse, h, clampQ, min_def, max_def]
      try norm_num

/-- Witness for C7: a request error yields exactly the fallback
report, and a fully-absent parsed response gets every documented
default, with all scores 7. -/
theorem C7_narrative_error_absorption_witness :
    (analyzeSpeechPerformance .requestError ⟨150, 1, 8⟩
      = (fallbackAnalysis ⟨150, 1, 8⟩).toQ)
    ∧ (validateAndFormatResponse ⟨none, none, none, none, none⟩).grammar_score
        = 7
    ∧ (validateAndFormatResponse ⟨none, none, none, none, none⟩).level
        = "Intermediate" := by
  refine ⟨(C7_narrative_error_absorption ⟨150, 1, 8⟩ .requestError).1
      (fun r h => by cases h), ?_, ?_⟩
  · exact ((C7_narrative_error_absorption ⟨150, 1, 8⟩ .requestError).2.2
      ⟨none, none, none, none, none⟩).2.2.2.2.1 rfl
  · exact ((C7_narrative_error_absorption ⟨150, 1, 8⟩ .requestError).2.2
      ⟨none, none, none, none, none⟩).2.2.2.2.2.2.2.1 rfl

/-- C4: on the transcript
`"um so basically I think uh this is like really good you know"` the
text analyzer finds 13 word tokens and 6 filler occurrences (the
single-word fillers um, so, basically, uh, like plus the multi-word
filler "you know"), so the filler percentage is `600/13 ≈ 46.15`. -/
theorem C4_example_transcript :
    (analyzeText
      "um so basically I think uh this is like really good you know".data).word_count
      = 13
    ∧ (analyzeText
      "um so basically I think uh this is like really good you know".data).filler_count
      = 6
    ∧ (analyzeText
      "um so basically I think uh this is like really good you know".data).filler_percentage
      = 600 / 13 := by
  refine ⟨by decide, by decide, ?_⟩
  rw [analyzeText_percentage]
  have hw : (analyzeText
      "um so basically I think uh this is like really good you know".data).word_count
      = 13 := by decide
  have hf : (analyzeText
      "um so basically I think uh this is like really good you know".data).filler_count
      = 6 := by decide
  rw [hw, hf]
  norm_num

/-- C2: the volume-stability score is
`clamp(10 - 10·cv, 1, 10)` with `cv = std(valid)/mean(valid)` over the
strictly positive RMS values (over the real-number model every value
is finite, so the `np.isfinite` conjunct of the source's filter is
vacuously true), and it is the neutral default `5.0` whenever no valid
value remains — in particular on every all-zero RMS sequence, such as
the one a silent waveform produces — or the valid mean is `0`; the
function is total, so no error is raised. -/
theorem C2_volume_stability (rms : List ℝ) :
    (rms.filter (fun x => 0 < x) = [] →
      calculateVolumeStability rms = 5)
    ∧ (∀ n : ℕ, calculateVolumeStability (List.replicate n (0 : ℝ)) = 5)
    ∧ (rms.filter (fun x => 0 < x) ≠ [] →
        (let valid := rms.filter (fun x => 0 < x)
         let mean := valid.sum / valid.length
         let cv := Real.sqrt
             ((valid.map (fun x => (x - mean) ^ 2)).sum / valid.length) / mean
         (mean = 0 → calculateVolumeStability rms = 5)
         ∧ (mean ≠ 0 →
             calculateVolumeStability rms = max 1 (min 10 (10 - 10 * cv))))) := by
  refine ⟨?_, ?_, ?_⟩
  · intro h
    unfold calculateVolumeStability
    cases rms with
    | nil => simp
    | cons x l => simp_all
  · intro n
    have h : (List.replicate n (0 : ℝ)).filter (fun x => 0 < x) = [] := by
      induction n with
      | zero => rfl
      | succ k ih => simp [List.replicate_succ, List.filter_cons, ih]
    unfold calculateVolumeStability
    cases n with
    | zero => simp
    | succ k =>
      have hne : (List.replicate (k + 1) (0 : ℝ)).isEmpty = false := by
        simp [List.replicate_succ]
      simp [hne, h]
  · intro h
    have hne : rms.isEmpty = false := by
      cases rms
      · exact absurd rfl h
      · rfl
    constructor
    · intro hmean
      unfold calculateVolumeStability
      simp only [hne, Bool.false_eq_true, if_false]
      rw [if_neg (by simpa [List.isEmpty_iff] using h), if_pos hmean]
    · intro hmean
      unfold calculateVolumeStability
      simp only [hne, Bool.false_eq_true, if_false]
      rw [if_neg (by simpa [List.isEmpty_iff] using h), if_neg hmean]
      congr 1
      congr 1
      ring

/-- Witness for C2: the all-zero RMS sequence of three frames gets the
neutral default 5, and a constant positive RMS sequence has `cv = 0`
and score 10. -/
theorem C2_volume_stability_witness :
    calculateVolumeStability [(0 : ℝ), 0, 0] = 5 := by
  have h : ([(0 : ℝ), 0, 0].filter (fun x => 0 < x)) = [] := by
    simp [List.filter_cons]
  exact (C2_volume_stability [(0 : ℝ), 0, 0]).1 h

/-- Membership in `range(0, stop, 512)`: exactly the non-negative
multiples of 512 strictly below `stop`. -/
theorem mem_pyRange_zero (stop s : ℤ) :
    s ∈ pyRange 0 stop 512 ↔ ∃ k : ℕ, s = 512 * k ∧ s < stop := by
  have key : ∀ k : ℕ, ((k : ℤ) < (stop - 0 + 512 - 1) / 512
      ↔ 512 * (k : ℤ) < stop) := by
    intro k
    have h1 : stop - 0 + 512 - 1 = (stop - 1) + 1 * 512 := by ring
    rw [h1, Int.add_mul_ediv_right _ _ (by norm_num : (512 : ℤ) ≠ 0),
      Int.lt_add_one_iff,
      Int.le_ediv_iff_mul_le (by norm_num : (0 : ℤ) < 512)]
    constructor
    · intro h; linarith
    · intro h; linarith
  constructor
  · intro hs
    rw [pyRange, List.mem_map] at hs
    obtain ⟨k, hk, hks⟩ := hs
    rw [List.mem_range, Int.lt_toNat] at hk
    have h512 := (key k).mp hk
    exact ⟨k, by linarith, by linarith⟩
  · rintro ⟨k, rfl, hlt⟩
    rw [pyRange, List.mem_map]
    refine ⟨k, ?_, by ring⟩
    rw [List.mem_range, Int.lt_toNat]
    exact (key k).mpr (by linarith)

/-- A waveform of at most 2048 samples yields no frame start offsets:
`range(0, n - 2048, 512)` is empty whenever `n - 2048 ≤ 0`. -/
theorem frameStarts_nil (n : ℕ) (h : n ≤ 2048) : frameStarts n = [] := by
  rw [List.eq_nil_iff_forall_not_mem]
  intro s hs
  obtain ⟨k, hk, hlt⟩ := (mem_pyRange_zero ((n : ℤ) - 2048) s).mp hs
  have hneg : (512 : ℤ) * k < 0 := by
    rw [← hk]
    have : (n : ℤ) ≤ 2048 := by exact_mod_cast h
    linarith
  have hpos : (0 : ℤ) ≤ 512 * k := by positivity
  linarith

/-- C3 as stated is false at a waveform of exactly 2048 samples: the
extraction loop `range(0, len - 2048, 512)` uses a strict bound, so it
yields zero frames, not the one frame the claim's
`start + 2048 <= n` condition would admit. -/
theorem C3_frame_extraction_counterexample :
    (extractFrames (List.replicate 2048 (0 : ℝ))).length = 0
    ∧ (extractFrames (List.replicate 2048 (0 : ℝ))).length ≠ 1 := by
  have hlen : (List.replicate 2048 (0 : ℝ)).length = 2048 :=
    List.length_replicate 2048 0
  have h : extractFrames (List.replicate 2048 (0 : ℝ)) = [] := by
    unfold extractFrames
    rw [hlen, frameStarts_nil 2048 (le_refl _)]
    rfl
  rw [h]
  exact ⟨rfl, by decide⟩

/-- C3 amended: the frame start offsets are exactly the multiples of
512 with `start + 2048 < n` (strictly — the final frame that would end
exactly at the waveform's last sample is also dropped); each frame is
the 2048 samples at its offset; a waveform of 2048 samples or fewer
yields no frames. -/
theorem C3_frame_extraction_amended :
    (∀ (n : ℕ) (s : ℤ),
      s ∈ frameStarts n ↔ ∃ k : ℕ, s = 512 * k ∧ s + 2048 < (n : ℤ))
    ∧ (∀ audio : List ℝ, extractFrames audio =
        (frameStarts audio.length).map
          (fun i => (audio.drop i.toNat).take 2048))
    ∧ (∀ audio : List ℝ, audio.length ≤ 2048 → extractFrames audio = []) := by
  refine ⟨?_, fun audio => rfl, ?_⟩
  · intro n s
    rw [frameStarts, mem_pyRange_zero]
    constructor
    · rintro ⟨k, hk, hlt⟩
      exact ⟨k, hk, by linarith⟩
    · rintro ⟨k, hk, hlt⟩
      exact ⟨k, hk, by linarith⟩
  · intro audio h
    unfold extractFrames
    rw [frameStarts_nil _ h]
    rfl

/-- Witness for C3's amended statement: a 2048-sample waveform has no
frames, and offset 512 is a frame start of a 3000-sample waveform
(512 + 2048 < 3000). -/
theorem C3_frame_extraction_amended_witness :
    extractFrames (List.replicate 2048 (0 : ℝ)) = []
    ∧ (512 : ℤ) ∈ frameStarts 3000 := by
  constructor
  · exact C3_frame_extraction_amended.2.2 _
      (le_of_eq (List.length_replicate 2048 0))
  · exact (C3_frame_extraction_amended.1 3000 512).mpr
      ⟨1, by norm_num, by norm_num⟩

/-- C8: on a waveform of fewer than 2048 samples the frame sequence is
empty, the aggregates over that empty sequence (mean/variance of the
decibel values, mean zero-crossing rate) are numpy's NaN — the `none`
sentinel of the model, produced with no division-by-zero error — and
the Scorer recognizes the empty RMS sequence, returning its neutral
default 5. -/
theorem C8_short_waveform (audio : List ℝ) (h : audio.length < 2048) :
    extractFrames audio = []
    ∧ (extractAudioFeatures audio).rms_values = []
    ∧ (extractAudioFeatures audio).avg_volume_db = none
    ∧ (extractAudioFeatures audio).volume_variance = none
    ∧ (extractAudioFeatures audio).zero_crossing_rate = none
    ∧ calculateVolumeStability (extractAudioFeatures audio).rms_values = 5 := by
  have hf : extractFrames audio = [] := by
    unfold extractFrames
    rw [frameStarts_nil _ (le_of_lt h)]
    rfl
  refine ⟨hf, ?_, ?_, ?_, ?_, ?_⟩
  · simp [extractAudioFeatures, hf]
  · simp [extractAudioFeatures, hf, npMean]
  · simp [extractAudioFeatures, hf, npVar, npMean]
  · simp [extractAudioFeatures, hf, npMean]
  · have : (extractAudioFeatures audio).rms_values = [] := by
      simp [extractAudioFeatures, hf]
    rw [this]
    unfold calculateVolumeStability
    simp

/-- Witness for C8 at the empty waveform. -/
theorem C8_short_waveform_witness :
    extractFrames ([] : List ℝ) = []
    ∧ (extractAudioFeatures ([] : List ℝ)).avg_volume_db = none
    ∧ calculateVolumeStability (extractAudioFeatures ([] : List ℝ)).rms_values
        = 5 := by
  have h := C8_short_waveform [] (by norm_num)
  exact ⟨h.1, h.2.2.1, h.2.2.2.2.2⟩

end SpeechAI
